import Mathlib

/-!
Shallow embedding of the asset-management core of the carousel engine
(src/asset.rs, src/asset/storage.rs, src/asset/loader.rs, src/asset/notify.rs),
together with theorems settling the frozen claims about it.

Rust collections are modelled as association lists:
HashMap as an association list used only through lookup, insert and remove;
IndexMap as an association list in insertion order (its remove is a
swap-remove, which moves the last entry into the hole);
BTreeSet of (AssetPath, OrderWindow id) as a list of pairs with set-style
insert and remove (the Start and End sentinels of OrderWindow are only used
as range-query bounds and are never stored, so the stored elements are
exactly the (path, id) pairs).
Machine integers (usize, u64) are modelled as Nat; usize saturating_add is
modelled explicitly, and the Rust panic on remainder by zero is modelled by
returning none.
-/

namespace Carousel

/-- Association-list lookup, first match wins (models HashMap or IndexMap get). -/
def lookupA {α β : Type} [DecidableEq α] : List (α × β) → α → Option β
  | [], _ => none
  | (a, b) :: t, k => if a = k then some b else lookupA t k

/-- Association-list insert: replace in place if the key exists, else append
(models HashMap and IndexMap insert; IndexMap keeps the position of an
existing key and appends new keys at the end). -/
def insertA {α β : Type} [DecidableEq α] : List (α × β) → α → β → List (α × β)
  | [], k, v => [(k, v)]
  | (a, b) :: t, k, v => if a = k then (k, v) :: t else (a, b) :: insertA t k v

/-- Association-list remove (models HashMap remove). -/
def removeA {α β : Type} [DecidableEq α] (l : List (α × β)) (k : α) : List (α × β) :=
  l.filter (fun p => p.1 ≠ k)

/-- IndexMap remove is a swap-remove: the last entry is moved into the hole
left by the removed key, shrinking the list by one. -/
def swapRemoveA {α β : Type} [DecidableEq α] : List (α × β) → α → List (α × β)
  | [], _ => []
  | (a, b) :: t, k =>
      if a = k then
        match t.getLast? with
        | none => []
        | some x => x :: t.dropLast
      else (a, b) :: swapRemoveA t k

/-- BTreeSet insert. -/
def setInsert {α : Type} [DecidableEq α] (l : List α) (x : α) : List α :=
  if x ∈ l then l else l ++ [x]

/-- BTreeSet remove. -/
def setRemove {α : Type} [DecidableEq α] (l : List α) (x : α) : List α :=
  l.filter (fun y => y ≠ x)

/-! ## Identity model (src/asset.rs) -/

inductive AssetPathKind : Type
  | sys
  | usr
deriving DecidableEq, Repr

/-- Relative path, modelled as its list of components. -/
abbrev RelPath := List String

/-- AssetPath: a namespaced relative path. -/
structure AssetPath : Type where
  kind : AssetPathKind
  path : RelPath
deriving DecidableEq, Repr

/-- AssetUri: either a namespaced relative path or an opaque UUID. -/
inductive AssetUri : Type
  | assetPath (p : AssetPath)
  | uuid (u : Nat)
deriving DecidableEq, Repr

/-- AssetUri::asset_path. -/
def AssetUri.asset_path : AssetUri → Option AssetPath
  | .assetPath p => some p
  | .uuid _ => none

/-- UntypedAssetId: the URI together with the target type tag. The Blake3
hash id is derived deterministically from exactly these two fields, so
equality on the hash coincides with structural equality here. -/
structure UntypedAssetId : Type where
  uri : AssetUri
  tid : Nat
deriving DecidableEq, Repr

/-- An asset value (Box of dyn Any), abstracted. -/
abbrev AssetVal := Nat

/-- A prepared untyped message (UntypedMessage), abstracted. -/
abbrev Msg := Nat

/-- SyncQueueEntry: a constructed asset value plus its identity and the two
pre-built notification messages. -/
structure SyncQueueEntry : Type where
  asset_id : UntypedAssetId
  asset : AssetVal
  loaded_event : Option Msg
  unloaded_event : Option Msg
deriving DecidableEq, Repr

/-- DependencyQueueEntry: an identity plus a force flag. -/
structure DependencyQueueEntry : Type where
  asset_id : UntypedAssetId
  force : Bool
deriving DecidableEq, Repr

/-! ## Storage (src/asset/storage.rs) -/

/-- InnerAssets: the value table, the counter table (an IndexMap whose values
are the strong counts of the Arc counters), the path reverse index, and the
stashed unloaded notifications. -/
structure InnerAssets : Type where
  underlying : List (UntypedAssetId × AssetVal)
  counters : List (UntypedAssetId × Nat)
  path_id_index : List (AssetPath × UntypedAssetId)
  unloaded_events : List (UntypedAssetId × Msg)
deriving DecidableEq, Repr

def emptyInner : InnerAssets := ⟨[], [], [], []⟩

/-- counters.get(id).map(Arc::strong_count).unwrap_or_default(). -/
def strongCountOf (counters : List (UntypedAssetId × Nat)) (id : UntypedAssetId) : Nat :=
  (lookupA counters id).getD 0

/-- One iteration of the loop of Assets::extend, threading the state and the
collected loaded events: when the count is positive, install the value,
insert the path-index entry for a path-based URI, collect the loaded event
and stash the unloaded event; otherwise leave everything unchanged. -/
def extendStep (counters : List (UntypedAssetId × Nat))
    (acc : InnerAssets × List Msg) (entry : SyncQueueEntry) : InnerAssets × List Msg :=
  if 0 < strongCountOf counters entry.asset_id then
    ({ underlying := insertA acc.1.underlying entry.asset_id entry.asset,
       counters := acc.1.counters,
       path_id_index :=
         match entry.asset_id.uri.asset_path with
         | some ap => setInsert acc.1.path_id_index (ap, entry.asset_id)
         | none => acc.1.path_id_index,
       unloaded_events :=
         match entry.unloaded_event with
         | some ue => insertA acc.1.unloaded_events entry.asset_id ue
         | none => acc.1.unloaded_events },
     match entry.loaded_event with
     | some le => acc.2 ++ [le]
     | none => acc.2)
  else acc

/-- Assets::extend: for each queued entry whose counter still shows at least
one reference, install the value, update the path index, collect the loaded
notification and stash the unloaded one; the collected loaded events are sent
only after the whole batch (second component of the result). The counter
table is read but never written, so the count check always uses the counters
of the starting state. -/
def extend (st : InnerAssets) (entries : List SyncQueueEntry) : InnerAssets × List Msg :=
  entries.foldl (extendStep st.counters) (st, [])

/-- An observable storage action of Assets::extend: installing a value or
sending a loaded notification. -/
inductive StorageAction : Type
  | insert (id : UntypedAssetId)
  | emit (m : Msg)
deriving DecidableEq, Repr

/-- One loop iteration of Assets::extend viewed as actions: an accepted entry
contributes an install action and collects its loaded event for later. -/
def extendTraceStep (counters : List (UntypedAssetId × Nat))
    (acc : List StorageAction × List Msg) (e : SyncQueueEntry) :
    List StorageAction × List Msg :=
  if 0 < strongCountOf counters e.asset_id then
    (acc.1 ++ [StorageAction.insert e.asset_id],
      match e.loaded_event with
      | some le => acc.2 ++ [le]
      | none => acc.2)
  else acc

/-- The actions of Assets::extend in the order the code performs them: the
loop installs accepted entries one by one (collecting their loaded events),
and only after the loop does a second loop send the collected events. -/
def extendTrace (st : InnerAssets) (entries : List SyncQueueEntry) : List StorageAction :=
  let r := entries.foldl (extendTraceStep st.counters) ([], [])
  r.1 ++ r.2.map StorageAction.emit

/-- usize::MAX. -/
def USIZE_MAX : Nat := 2 ^ 64 - 1

/-- usize::saturating_add. -/
def satAdd (a b : Nat) : Nat := min (a + b) USIZE_MAX

/-- One iteration of the removal loop of Assets::gc: re-check the count of
the candidate under the write lock and, when it is still below two, remove it
from the counters (IndexMap remove = swap-remove), the value table and the
path index, and send the stashed unloaded notification if present. -/
def gcRemoveStep (acc : InnerAssets × List Msg) (k : UntypedAssetId) : InnerAssets × List Msg :=
  if (lookupA acc.1.counters k).getD 0 < 2 then
    ({ counters := swapRemoveA acc.1.counters k,
       underlying := removeA acc.1.underlying k,
       path_id_index :=
         match k.uri.asset_path with
         | some ap => setRemove acc.1.path_id_index (ap, k)
         | none => acc.1.path_id_index,
       unloaded_events := removeA acc.1.unloaded_events k },
     match lookupA acc.1.unloaded_events k with
     | some ue => acc.2 ++ [ue]
     | none => acc.2)
  else acc

/-- Assets::gc: scan a window of the counter table starting at the rotating
offset, select candidates whose strong count is below two, then re-check each
candidate and remove it. Returns the new state, the sent unloaded messages
and the next scan position. Returns none exactly when the counter table is
empty, modelling the Rust panic on the remainder by zero in
(at.saturating_add(max).max(counters.len()) % counters.len()). -/
def gc (st : InnerAssets) (at_ max_ : Nat) : Option (InnerAssets × List Msg × Nat) :=
  if st.counters.length = 0 then none
  else
    let next := max (satAdd at_ max_) st.counters.length % st.counters.length
    let gcAssets := ((st.counters.drop at_).take max_).filterMap
      (fun kc => if kc.2 < 2 then some kc.1 else none)
    if gcAssets.isEmpty then some (st, [], next)
    else
      let r := gcAssets.foldl gcRemoveStep (st, [])
      some (r.1, r.2, next)

/-- Repeated gc ticks: each tick starts at the position returned by the
previous one, as on_gc_assets_event stores the returned position in gc_at. -/
def gcIter (max_ : Nat) : Nat → InnerAssets → Nat → Option (InnerAssets × Nat)
  | 0, st, at_ => some (st, at_)
  | n + 1, st, at_ =>
      match gc st at_ max_ with
      | none => none
      | some (st', _, next) => gcIter max_ n st' next

/-- AssetsClient::register_asset, restricted to the counter table it touches:
a preexisting counter is cloned (its strong count grows by one), an
unfamiliar identity gets a fresh counter whose clone is handed out (table
entry plus the returned handle: strong count two). The Bool records whether
the identity was preexisting. -/
def register_asset (counters : List (UntypedAssetId × Nat)) (id : UntypedAssetId) :
    List (UntypedAssetId × Nat) × Bool :=
  match lookupA counters id with
  | some c => (insertA counters id (c + 1), true)
  | none => (counters ++ [(id, 2)], false)

/-- register_asset lifted to the whole storage state: only the counter table
changes. -/
def register_asset_state (st : InnerAssets) (id : UntypedAssetId) : InnerAssets :=
  { st with counters := (register_asset st.counters id).1 }

/-- AssetsClient::has_untyped. -/
def has_untyped (st : InnerAssets) (id : UntypedAssetId) : Bool :=
  (lookupA st.underlying id).isSome

/-- AssetsClient::get: underlying.get(id).unwrap(); none models the panic of
unwrap when the identity is not resident. -/
def get (st : InnerAssets) (id : UntypedAssetId) : Option AssetVal :=
  lookupA st.underlying id

/-- AssetsClient::try_loaded: returns a Loaded handle (same identity) exactly
when the value is resident. -/
def try_loaded (st : InnerAssets) (strong : UntypedAssetId) : Option UntypedAssetId :=
  if has_untyped st strong then some strong else none

/-- AssetCursor::queue_load: register the identity for the path; when it is
unfamiliar, push a dependency queue entry (force = false). Returns the new
counter table, the new dependency queue and the Strong handle identity. -/
def queue_load (counters : List (UntypedAssetId × Nat)) (dq : List DependencyQueueEntry)
    (ap : AssetPath) (tid : Nat) :
    List (UntypedAssetId × Nat) × List DependencyQueueEntry × UntypedAssetId :=
  let id : UntypedAssetId := ⟨AssetUri.assetPath ap, tid⟩
  match register_asset counters id with
  | (counters', true) => (counters', dq, id)
  | (counters', false) => (counters', dq ++ [⟨id, false⟩], id)

/-- AssetCursor::queue_load_optimistic: queue_load followed by the unchecked
into_loaded cast — the returned identity is handed back Loaded-shaped with no
residency check. -/
def queue_load_optimistic (counters : List (UntypedAssetId × Nat))
    (dq : List DependencyQueueEntry) (ap : AssetPath) (tid : Nat) :
    List (UntypedAssetId × Nat) × List DependencyQueueEntry × UntypedAssetId :=
  queue_load counters dq ap tid

/-! ## Asset server state and event handlers (src/asset.rs) -/

/-- The mutable state of the AssetServer that the modelled handlers touch. -/
structure AssetServerState : Type where
  assets : InnerAssets
  sync : Nat
  sync_requested : Nat
  sync_queue : List SyncQueueEntry
  sync_queue_max : Nat
  gc_at : Nat
  gc_max : Nat
deriving DecidableEq, Repr

/-- The server state right after AssetServerBuilder::finish and on_init_event:
empty storage, both sync counters zero, empty sync queue, gc position zero.
The builder defaults are sync_queue_max = usize::MAX and gc_max = usize::MAX. -/
def initAssetServerState (sync_queue_max gc_max : Nat) : AssetServerState :=
  ⟨emptyInner, 0, 0, [], sync_queue_max, 0, gc_max⟩

/-- on_sync_asset_event: skip when the signal counter differs from
sync_requested and the queue is still below sync_queue_max; also return when
the queue is empty; otherwise set sync to sync_requested and drain the entire
queue into storage through Assets::extend. The second component is the list
of loaded notifications that extend sent. -/
def on_sync_asset_event (st : AssetServerState) (eventSync : Nat) :
    AssetServerState × List Msg :=
  if st.sync_requested ≠ eventSync ∧ st.sync_queue.length < st.sync_queue_max then
    (st, [])
  else if st.sync_queue.isEmpty then
    (st, [])
  else
    let r := extend st.assets st.sync_queue
    ({ st with assets := r.1, sync := st.sync_requested, sync_queue := [] }, r.2)

/-- on_gc_assets_event: run one gc sweep from gc_at with window gc_max and
store the returned position in gc_at; none models the propagated gc panic. -/
def on_gc_assets_event (st : AssetServerState) : Option (AssetServerState × List Msg) :=
  match gc st.assets st.gc_at st.gc_max with
  | none => none
  | some (inner, msgs, next) => some ({ st with assets := inner, gc_at := next }, msgs)

/-! ## Load pipeline (on_load_asset_event in src/asset.rs) -/

/-- What one loader invocation does, as observed by the pipeline: the entries
it pushes onto the sync queue (through the final push of the loader closure
and any queue_store calls), the dependency entries it pushes, and whether it
returned Ok. A failing invocation may still have pushed entries and
dependencies before failing. -/
structure LoaderResult : Type where
  entries : List SyncQueueEntry
  deps : List DependencyQueueEntry
  ok : Bool

/-- The loop of on_load_asset_event: invoke the loader unless the identity is
already resident and not forced, append its pushes, and on Ok pop the next
dependency from the END of the dependency queue (Vec::pop). Returns the sync
queue when the loop ends together with the failure flag; none when the fuel
runs out (the real loop can run unboundedly on cyclic loaders). Residency is
fixed for the whole request because storage values only change in the
separately handled sync event. -/
def loadLoop (L : UntypedAssetId → LoaderResult) (hasA : UntypedAssetId → Bool) :
    Nat → UntypedAssetId → Bool → List SyncQueueEntry → List DependencyQueueEntry →
    Option (List SyncQueueEntry × Bool)
  | 0, _, _, _, _ => none
  | fuel + 1, id, force, sq, dq =>
      let sq1 := if force || !(hasA id) then sq ++ (L id).entries else sq
      let dq1 := if force || !(hasA id) then dq ++ (L id).deps else dq
      let ok := if force || !(hasA id) then (L id).ok else true
      if ok then
        match dq1.getLast? with
        | some nxt => loadLoop L hasA fuel nxt.asset_id nxt.force sq1 dq1.dropLast
        | none => some (sq1, false)
      else some (sq1, true)

/-- on_load_asset_event restricted to the sync queue: run the load loop
starting from the requested identity with an empty dependency queue and, on
failure, truncate the sync queue back to the length recorded at the start
(the code truncates right before breaking; the final queue is the same). -/
def on_load_asset_event (L : UntypedAssetId → LoaderResult) (hasA : UntypedAssetId → Bool)
    (fuel : Nat) (id : UntypedAssetId) (force : Bool) (sq : List SyncQueueEntry) :
    Option (List SyncQueueEntry × Bool) :=
  (loadLoop L hasA fuel id force sq []).map
    (fun r => if r.2 then (r.1.take sq.length, true) else r)

/-! ## Change notification (on_notify_assets_event, AssetsPaths,
Assets::asset_ids_for_path) -/

/-- An absolute filesystem path, modelled as its list of components. -/
abbrev AbsPath := List String

/-- AssetsPaths: the two content roots. -/
structure AssetsPaths : Type where
  sys_dir : AbsPath
  usr_dir : AbsPath
deriving DecidableEq, Repr

/-- Path::strip_prefix on component lists. -/
def stripPrefixL : AbsPath → AbsPath → Option AbsPath
  | [], p => some p
  | _, [] => none
  | a :: pre, b :: p => if a = b then stripPrefixL pre p else none

/-- AssetsPaths::asset_path: strip the sys root first, then the usr root. -/
def AssetsPaths.asset_path (ps : AssetsPaths) (p : AbsPath) : Option AssetPath :=
  match stripPrefixL ps.sys_dir p with
  | some rel => some ⟨AssetPathKind.sys, rel⟩
  | none =>
      match stripPrefixL ps.usr_dir p with
      | some rel => some ⟨AssetPathKind.usr, rel⟩
      | none => none

/-- AssetsPaths::asset_dir. -/
def AssetsPaths.asset_dir (ps : AssetsPaths) : AssetPathKind → AbsPath
  | AssetPathKind.sys => ps.sys_dir
  | AssetPathKind.usr => ps.usr_dir

/-- Assets::asset_ids_for_path: all identities the reverse index holds for
the exact asset path (the BTreeSet range between the Start and End sentinels
of that path). -/
def asset_ids_for_path (st : InnerAssets) (p : AssetPath) : List UntypedAssetId :=
  (st.path_id_index.filter (fun e => e.1 = p)).map (fun e => e.2)

/-- RelativePath::parent: none for the empty path, else drop the last
component. -/
def parentL : RelPath → Option RelPath
  | [] => none
  | x :: xs => some (x :: xs).dropLast

/-- The per-change loop of on_notify_assets_event: at the current asset path
send a forced LoadAssetEvent for every identity the index holds there, then
unconditionally map the parent path back through asset_path (against the
asset dir fixed by the kind of the first match) and continue; stop when there
is no parent or it falls outside both roots. Fuel bounds the walk, which the
source does not (with overlapping roots the source loop can cycle). -/
def notifyWalk (st : InnerAssets) (ps : AssetsPaths) (asset_dir : AbsPath) :
    Nat → AssetPath → List (UntypedAssetId × Bool)
  | 0, _ => []
  | fuel + 1, ap =>
      let events := (asset_ids_for_path st ap).map (fun id => (id, true))
      match parentL ap.path with
      | none => events
      | some par =>
          match ps.asset_path (asset_dir ++ par) with
          | none => events
          | some ap' => events ++ notifyWalk st ps asset_dir fuel ap'

/-- on_notify_assets_event for a single raw changed path: map it to an asset
path by stripping a root, then walk upward emitting forced load requests.
The emitted list pairs each re-submitted identity with its force flag. -/
def on_notify_change (st : InnerAssets) (ps : AssetsPaths) (fuel : Nat) (raw : AbsPath) :
    List (UntypedAssetId × Bool) :=
  match ps.asset_path raw with
  | none => []
  | some ap => notifyWalk st ps (ps.asset_dir ap.kind) fuel ap

/-! ## Association-list lemmas -/

theorem lookupA_nil {α β : Type} [DecidableEq α] (k : α) :
    lookupA ([] : List (α × β)) k = none := rfl

theorem lookupA_cons {α β : Type} [DecidableEq α] (a : α) (b : β) (t : List (α × β)) (k : α) :
    lookupA ((a, b) :: t) k = if a = k then some b else lookupA t k := rfl

theorem lookupA_cons' {α β : Type} [DecidableEq α] (x : α × β) (t : List (α × β)) (k : α) :
    lookupA (x :: t) k = if x.1 = k then some x.2 else lookupA t k := by
  obtain ⟨a, b⟩ := x
  rfl

theorem lookupA_insertA_self {α β : Type} [DecidableEq α] (l : List (α × β)) (k : α) (v : β) :
    lookupA (insertA l k v) k = some v := by
  induction l with
  | nil => simp [insertA, lookupA]
  | cons hd t ih =>
      obtain ⟨a, b⟩ := hd
      by_cases h : a = k
      · simp [insertA, h, lookupA]
      · simp [insertA, h, lookupA, ih]

theorem lookupA_insertA_ne {α β : Type} [DecidableEq α] (l : List (α × β)) (k k' : α) (v : β)
    (h : k' ≠ k) : lookupA (insertA l k v) k' = lookupA l k' := by
  have hkk : ¬ k = k' := fun hc => h hc.symm
  induction l with
  | nil => simp [insertA, lookupA, hkk]
  | cons hd t ih =>
      obtain ⟨a, b⟩ := hd
      by_cases ha : a = k
      · have ha' : ¬ a = k' := by rw [ha]; exact hkk
        simp only [insertA, ha, if_true]
        rw [lookupA_cons, lookupA_cons, if_neg hkk, if_neg hkk]
      · simp only [insertA, ha, if_false]
        rw [lookupA_cons, lookupA_cons]
        by_cases ha' : a = k'
        · simp [ha']
        · simp only [ha', if_false]
          exact ih

theorem lookupA_append_left {α β : Type} [DecidableEq α] (l₁ l₂ : List (α × β)) (k : α)
    (v : β) (h : lookupA l₁ k = some v) : lookupA (l₁ ++ l₂) k = some v := by
  induction l₁ with
  | nil => simp [lookupA] at h
  | cons hd t ih =>
      obtain ⟨a, b⟩ := hd
      by_cases ha : a = k
      · simp only [lookupA, ha, if_true] at h
        simp only [List.cons_append, lookupA, ha, if_true]
        exact h
      · simp only [lookupA, ha, if_false] at h
        simp only [List.cons_append, lookupA, ha, if_false]
        exact ih h

theorem lookupA_append_right {α β : Type} [DecidableEq α] (l₁ l₂ : List (α × β)) (k : α)
    (h : lookupA l₁ k = none) : lookupA (l₁ ++ l₂) k = lookupA l₂ k := by
  induction l₁ with
  | nil => simp
  | cons hd t ih =>
      obtain ⟨a, b⟩ := hd
      by_cases ha : a = k
      · simp [lookupA, ha] at h
      · simp only [lookupA, ha, if_false] at h
        simp only [List.cons_append, lookupA, ha, if_false]
        exact ih h

theorem lookupA_removeA_ne {α β : Type} [DecidableEq α] (l : List (α × β)) (k k' : α)
    (h : k' ≠ k) : lookupA (removeA l k) k' = lookupA l k' := by
  induction l with
  | nil => rfl
  | cons hd t ih =>
      obtain ⟨a, b⟩ := hd
      simp only [removeA, List.filter_cons] at ih ⊢
      by_cases ha : a = k
      · have ha' : ¬ a = k' := by rw [ha]; exact fun hc => h hc.symm
        rw [if_neg (by simp [ha]), ih, lookupA_cons, if_neg ha']
      · rw [if_pos (by simp [ha]), lookupA_cons, lookupA_cons, ih]

theorem mem_keys_of_lookupA_isSome {α β : Type} [DecidableEq α] (l : List (α × β)) (k : α)
    (h : (lookupA l k).isSome) : k ∈ l.map Prod.fst := by
  induction l with
  | nil => simp [lookupA] at h
  | cons hd t ih =>
      obtain ⟨a, b⟩ := hd
      by_cases ha : a = k
      · simp [ha]
      · simp only [lookupA, ha, if_false] at h
        simp [ih h]

theorem lookupA_eq_none_of_not_mem_keys {α β : Type} [DecidableEq α] (l : List (α × β))
    (k : α) (h : k ∉ l.map Prod.fst) : lookupA l k = none := by
  cases hl : lookupA l k with
  | none => rfl
  | some v =>
      exact absurd (mem_keys_of_lookupA_isSome l k (by simp [hl])) h

/-- Rotating the last element of a list to the front preserves lookups when
the keys are distinct. -/
theorem lookupA_rot {α β : Type} [DecidableEq α] (D : List (α × β)) (g : α × β)
    (hnd : ((D ++ [g]).map Prod.fst).Nodup) (k : α) :
    lookupA (g :: D) k = lookupA (D ++ [g]) k := by
  have hnd' : (D.map Prod.fst ++ [g.1]).Nodup := by simpa using hnd
  rcases List.nodup_append.mp hnd' with ⟨hndD, hg, hdisj⟩
  by_cases hk : g.1 = k
  · have hnotin : k ∉ D.map Prod.fst := by
      intro hmem
      exact hdisj hmem (by simp [hk])
    have hD : lookupA D k = none := lookupA_eq_none_of_not_mem_keys _ _ hnotin
    rw [lookupA_append_right _ _ _ hD]
    simp [lookupA_cons', hk]
  · cases hD : lookupA D k with
    | none =>
        rw [lookupA_append_right _ _ _ hD]
        simp [lookupA_cons', hk, hD, lookupA_nil]
    | some v =>
        rw [lookupA_append_left _ _ _ _ hD, lookupA_cons', if_neg hk]
        exact hD

theorem lookupA_getLast_cons_dropLast {α β : Type} [DecidableEq α] (l : List (α × β))
    (hne : l ≠ []) (hnd : (l.map Prod.fst).Nodup) (k : α) :
    lookupA (l.getLast hne :: l.dropLast) k = lookupA l k := by
  have hsplit : l.dropLast ++ [l.getLast hne] = l := List.dropLast_append_getLast hne
  have h := lookupA_rot l.dropLast (l.getLast hne) (by rw [hsplit]; exact hnd) k
  rw [hsplit] at h
  exact h

theorem swapRemoveA_subset {α β : Type} [DecidableEq α] (l : List (α × β)) (k : α) :
    ∀ x ∈ swapRemoveA l k, x ∈ l := by
  induction l with
  | nil => simp [swapRemoveA]
  | cons hd t ih =>
      obtain ⟨a, b⟩ := hd
      by_cases ha : a = k
      · simp only [swapRemoveA, ha, if_true]
        cases hgl : t.getLast? with
        | none => simp
        | some x =>
            intro y hy
            rcases List.mem_cons.mp hy with h | h
            · subst h
              refine List.mem_cons_of_mem _ ?_
              rw [← List.dropLast_append_getLast? y hgl]
              simp
            · exact List.mem_cons_of_mem _ (List.dropLast_subset t h)
      · simp only [swapRemoveA, ha, if_false]
        intro y hy
        rcases List.mem_cons.mp hy with h | h
        · simp [h]
        · exact List.mem_cons_of_mem _ (ih y h)

theorem keys_nodup_swapRemoveA {α β : Type} [DecidableEq α] (l : List (α × β)) (k : α)
    (hnd : (l.map Prod.fst).Nodup) : ((swapRemoveA l k).map Prod.fst).Nodup := by
  induction l with
  | nil => simp [swapRemoveA]
  | cons hd t ih =>
      obtain ⟨a, b⟩ := hd
      simp only [List.map_cons, List.nodup_cons] at hnd
      by_cases ha : a = k
      · simp only [swapRemoveA, ha, if_true]
        cases hgl : t.getLast? with
        | none => simp
        | some x =>
            have hsplit : t.dropLast ++ [x] = t := List.dropLast_append_getLast? x hgl
            have h2 : List.Perm (x :: t.dropLast) (t.dropLast ++ [x]) :=
              (List.perm_append_singleton x t.dropLast).symm
            rw [hsplit] at h2
            exact ((h2.map Prod.fst).nodup_iff).mpr hnd.2
      · simp only [swapRemoveA, ha, if_false, List.map_cons, List.nodup_cons]
        refine ⟨fun hmem => ?_, ih hnd.2⟩
        rcases List.mem_map.mp hmem with ⟨y, hy, hya⟩
        exact hnd.1 (List.mem_map.mpr ⟨y, swapRemoveA_subset t k y hy, hya⟩)

theorem lookupA_swapRemoveA_ne {α β : Type} [DecidableEq α] (l : List (α × β)) (k k' : α)
    (hnd : (l.map Prod.fst).Nodup) (h : k' ≠ k) :
    lookupA (swapRemoveA l k) k' = lookupA l k' := by
  induction l with
  | nil => simp [swapRemoveA]
  | cons hd t ih =>
      obtain ⟨a, b⟩ := hd
      simp only [List.map_cons, List.nodup_cons] at hnd
      by_cases ha : a = k
      · have hkk : ¬ k = k' := fun hc => h hc.symm
        simp only [swapRemoveA, ha, if_true]
        rw [lookupA_cons, if_neg hkk]
        cases hgl : t.getLast? with
        | none =>
            have ht : t = [] := List.getLast?_eq_none_iff.mp hgl
            subst ht
            rfl
        | some x =>
            have hne : t ≠ [] := by
              intro hh; subst hh; simp at hgl
            have hx : t.getLast hne = x := by
              rw [List.getLast?_eq_getLast t hne] at hgl
              exact Option.some.inj hgl
            rw [← hx]
            exact lookupA_getLast_cons_dropLast t hne hnd.2 k'
      · simp only [swapRemoveA, ha, if_false]
        rw [lookupA_cons, lookupA_cons]
        by_cases ha' : a = k'
        · simp [ha']
        · simp only [ha', if_false]
          exact ih hnd.2

theorem mem_setInsert_iff {α : Type} [DecidableEq α] (l : List α) (x y : α) :
    y ∈ setInsert l x ↔ y ∈ l ∨ y = x := by
  by_cases h : x ∈ l
  · simp only [setInsert, h, if_true]
    constructor
    · exact Or.inl
    · rintro (hy | hy)
      · exact hy
      · exact hy ▸ h
  · simp [setInsert, h]

theorem mem_setRemove_iff {α : Type} [DecidableEq α] (l : List α) (x y : α) :
    y ∈ setRemove l x ↔ y ∈ l ∧ y ≠ x := by
  simp [setRemove, List.mem_filter]

/-! ## Characterization of Assets::extend -/

/-- The entries of a batch that pass the counter check of Assets::extend. -/
def acceptedBy (counters : List (UntypedAssetId × Nat)) (entries : List SyncQueueEntry) :
    List SyncQueueEntry :=
  entries.filter (fun e => 0 < strongCountOf counters e.asset_id)

theorem extendTrace_fold (cnt : List (UntypedAssetId × Nat)) (entries : List SyncQueueEntry) :
    ∀ acc : List StorageAction × List Msg,
      (entries.foldl (extendTraceStep cnt) acc).1
        = acc.1 ++ (acceptedBy cnt entries).map (fun e => StorageAction.insert e.asset_id) ∧
      (entries.foldl (extendTraceStep cnt) acc).2
        = acc.2 ++ (acceptedBy cnt entries).filterMap (fun e => e.loaded_event) := by
  induction entries with
  | nil => intro acc; simp [acceptedBy]
  | cons e t ih =>
      intro acc
      simp only [List.foldl_cons, acceptedBy, List.filter_cons] at ih ⊢
      by_cases he : 0 < strongCountOf cnt e.asset_id
      · rw [if_pos (by simpa using he)]
        have hstep : extendTraceStep cnt acc e
            = (acc.1 ++ [StorageAction.insert e.asset_id],
               match e.loaded_event with
               | some le => acc.2 ++ [le]
               | none => acc.2) := by
          simp [extendTraceStep, he]
        rw [hstep]
        obtain ⟨ih1, ih2⟩ := ih (acc.1 ++ [StorageAction.insert e.asset_id],
          match e.loaded_event with
          | some le => acc.2 ++ [le]
          | none => acc.2)
        constructor
        · rw [ih1]
          simp [List.append_assoc]
        · rw [ih2]
          cases hle : e.loaded_event with
          | some le => simp [List.filterMap_cons, hle, List.append_assoc]
          | none => simp [List.filterMap_cons, hle]
      · rw [if_neg (by simpa using he)]
        have hstep : extendTraceStep cnt acc e = acc := by
          simp [extendTraceStep, he]
        rw [hstep]
        exact ih acc

/-- Shape of the full action trace of Assets::extend: all installs of the
accepted entries, in batch order, followed by all loaded notifications. -/
theorem extendTrace_eq (st : InnerAssets) (entries : List SyncQueueEntry) :
    extendTrace st entries
      = (acceptedBy st.counters entries).map (fun e => StorageAction.insert e.asset_id)
        ++ ((acceptedBy st.counters entries).filterMap (fun e => e.loaded_event)).map
            StorageAction.emit := by
  obtain ⟨h1, h2⟩ := extendTrace_fold st.counters entries ([], [])
  simp only [extendTrace, h1, h2, List.nil_append]

/-- Characterization of the state and events produced by Assets::extend,
relative to a fixed counter table (which the loop reads but never writes). -/
theorem extend_fold_char (cnt : List (UntypedAssetId × Nat)) (entries : List SyncQueueEntry) :
    ∀ (s : InnerAssets) (les : List Msg),
      (entries.foldl (extendStep cnt) (s, les)).1.underlying
        = (acceptedBy cnt entries).foldl
            (fun u e => insertA u e.asset_id e.asset) s.underlying ∧
      (entries.foldl (extendStep cnt) (s, les)).2
        = les ++ (acceptedBy cnt entries).filterMap (fun e => e.loaded_event) ∧
      (entries.foldl (extendStep cnt) (s, les)).1.counters = s.counters ∧
      (entries.foldl (extendStep cnt) (s, les)).1.path_id_index
        = (acceptedBy cnt entries).foldl
            (fun ix e =>
              match e.asset_id.uri.asset_path with
              | some ap => setInsert ix (ap, e.asset_id)
              | none => ix) s.path_id_index := by
  induction entries with
  | nil => intro s les; simp [acceptedBy]
  | cons e t ih =>
      intro s les
      simp only [List.foldl_cons, acceptedBy, List.filter_cons] at ih ⊢
      by_cases he : 0 < strongCountOf cnt e.asset_id
      · rw [if_pos (by simpa using he)]
        have hstep : extendStep cnt (s, les) e
            = ({ underlying := insertA s.underlying e.asset_id e.asset,
                 counters := s.counters,
                 path_id_index :=
                   match e.asset_id.uri.asset_path with
                   | some ap => setInsert s.path_id_index (ap, e.asset_id)
                   | none => s.path_id_index,
                 unloaded_events :=
                   match e.unloaded_event with
                   | some ue => insertA s.unloaded_events e.asset_id ue
                   | none => s.unloaded_events },
               match e.loaded_event with
               | some le => les ++ [le]
               | none => les) := by
          simp [extendStep, he]
        rw [hstep]
        obtain ⟨ih1, ih2, ih3, ih4⟩ := ih
          { underlying := insertA s.underlying e.asset_id e.asset,
            counters := s.counters,
            path_id_index :=
              match e.asset_id.uri.asset_path with
              | some ap => setInsert s.path_id_index (ap, e.asset_id)
              | none => s.path_id_index,
            unloaded_events :=
              match e.unloaded_event with
              | some ue => insertA s.unloaded_events e.asset_id ue
              | none => s.unloaded_events }
          (match e.loaded_event with
           | some le => les ++ [le]
           | none => les)
        refine ⟨by rw [ih1]; rfl, ?_, by rw [ih3], by rw [ih4]; rfl⟩
        rw [ih2]
        cases hle : e.loaded_event with
        | some le => simp [List.filterMap_cons, hle, List.append_assoc]
        | none => simp [List.filterMap_cons, hle]
      · rw [if_neg (by simpa using he)]
        have hstep : extendStep cnt (s, les) e = (s, les) := by
          simp [extendStep, he]
        rw [hstep]
        exact ih s les

/-! ## Concrete states used by counterexamples and witnesses -/

def exId1 : UntypedAssetId := ⟨AssetUri.uuid 1, 0⟩

def exEntry1 : SyncQueueEntry := ⟨exId1, 42, some 10, some 20⟩

def exInner1 : InnerAssets := ⟨[], [(exId1, 2)], [], []⟩

/-- A server state whose sync queue has reached sync_queue_max while a newer
sync (counter 1) than the arriving signal (counter 0) is pending. -/
def exSyncState : AssetServerState := ⟨exInner1, 0, 1, [exEntry1], 1, 0, 0⟩

/-- A server state below the queue maximum with a pending newer sync. -/
def exSkipState : AssetServerState := ⟨emptyInner, 0, 5, [exEntry1], 10, 0, 0⟩

/-- Three registered identities, each with one outside strong holder. -/
def exGcInner : InnerAssets :=
  ⟨[], [(⟨AssetUri.uuid 1, 0⟩, 2), (⟨AssetUri.uuid 2, 0⟩, 2), (⟨AssetUri.uuid 3, 0⟩, 2)],
    [], []⟩

/-! ## C4 and C5: the commit loop of Assets::extend -/

/-- C4: during a commit of a batch of sync queue entries, every accepted
entry is installed during the loop and the loaded notifications are all sent
after the loop, in one sweep: in the action trace of Assets::extend an
emitted notification never precedes an install, so any emit index lies
strictly after every install index of the same batch. -/
theorem extend_inserts_before_emits (st : InnerAssets) (entries : List SyncQueueEntry)
    (i j : Nat) (m : Msg) (id : UntypedAssetId)
    (hi : (extendTrace st entries)[i]? = some (StorageAction.emit m))
    (hj : (extendTrace st entries)[j]? = some (StorageAction.insert id)) :
    j < i := by
  rw [extendTrace_eq] at hi hj
  have hiA : ¬ i < ((acceptedBy st.counters entries).map
      (fun e => StorageAction.insert e.asset_id)).length := by
    intro hlt
    rw [List.getElem?_append_left hlt] at hi
    have hmem := List.getElem?_mem hi
    rcases List.mem_map.mp hmem with ⟨e, _, heq⟩
    exact StorageAction.noConfusion heq
  have hjA : j < ((acceptedBy st.counters entries).map
      (fun e => StorageAction.insert e.asset_id)).length := by
    by_contra hge
    rw [List.getElem?_append_right (not_lt.mp hge)] at hj
    have hmem := List.getElem?_mem hj
    rcases List.mem_map.mp hmem with ⟨e, _, heq⟩
    exact StorageAction.noConfusion heq
  omega

/-- Witness for C4 at a concrete batch: the trace of a one-entry commit is
an install followed by an emit, and the theorem yields 0 < 1. -/
theorem extend_inserts_before_emits_witness :
    (extendTrace exInner1 [exEntry1])[1]? = some (StorageAction.emit 10) ∧
    (extendTrace exInner1 [exEntry1])[0]? = some (StorageAction.insert exId1) ∧
    (0 : Nat) < 1 :=
  ⟨rfl, rfl, extend_inserts_before_emits exInner1 [exEntry1] 1 0 10 exId1 rfl rfl⟩

/-- C5: during a commit each queued entry is checked against the counter
table: the installed values are exactly the foldl of the accepted entries
(those whose identity still counts at least one reference) over the value
table, the emitted loaded notifications are exactly those of the accepted
entries, and an entry is accepted precisely when its counter shows at least
one reference — so a dropped entry installs nothing and emits nothing. -/
theorem extend_commit_filters_by_counter (st : InnerAssets) (entries : List SyncQueueEntry) :
    (extend st entries).1.underlying
      = (acceptedBy st.counters entries).foldl
          (fun u e => insertA u e.asset_id e.asset) st.underlying ∧
    (extend st entries).2
      = (acceptedBy st.counters entries).filterMap (fun e => e.loaded_event) ∧
    (∀ e, e ∈ entries →
      (e ∈ acceptedBy st.counters entries ↔ 0 < strongCountOf st.counters e.asset_id)) := by
  obtain ⟨h1, h2, h3, h4⟩ := extend_fold_char st.counters entries st []
  refine ⟨h1, by simpa using h2, ?_⟩
  intro e he
  simp [acceptedBy, List.mem_filter, he]

/-- Witness for C5 at a concrete batch: the single entry has a live counter
and is accepted. -/
theorem extend_commit_filters_by_counter_witness :
    exEntry1 ∈ acceptedBy exInner1.counters [exEntry1] := by
  have h := extend_commit_filters_by_counter exInner1 [exEntry1]
  exact (h.2.2 exEntry1 (by simp)).mpr (by decide)

/-! ## C3: the coalescing commit handler -/

/-- C3 counterexample: a sync signal whose counter (0) does not match the
most recently requested counter (1) arrives while the queue has grown to the
configured maximum; the claim says the commit is skipped and the queue left
unchanged, but on_sync_asset_event drains the queue and commits it. -/
theorem sync_skip_claim_false :
    exSyncState.sync_requested ≠ 0 ∧
    exSyncState.sync_queue_max ≤ exSyncState.sync_queue.length ∧
    (on_sync_asset_event exSyncState 0).1.sync_queue = [] ∧
    exSyncState.sync_queue ≠ [] := by
  refine ⟨by decide, by decide, ?_, by decide⟩
  rfl

/-- C3 (amended): the commit is skipped, leaving the state untouched, exactly
when the counter does not match AND the queue is still below sync_queue_max;
when the counter matches or the queue has reached the maximum, the whole
queue is drained and committed to Storage through Assets::extend. -/
theorem sync_commit_characterization (st : AssetServerState) (ev : Nat) :
    ((st.sync_requested ≠ ev ∧ st.sync_queue.length < st.sync_queue_max) →
      on_sync_asset_event st ev = (st, [])) ∧
    ((st.sync_requested = ev ∨ st.sync_queue_max ≤ st.sync_queue.length) →
      (on_sync_asset_event st ev).1.sync_queue = [] ∧
      (on_sync_asset_event st ev).1.assets = (extend st.assets st.sync_queue).1 ∧
      (on_sync_asset_event st ev).2 = (extend st.assets st.sync_queue).2) := by
  constructor
  · intro h
    simp [on_sync_asset_event, h]
  · intro h
    have hskip : ¬ (st.sync_requested ≠ ev ∧ st.sync_queue.length < st.sync_queue_max) := by
      rcases h with h | h
      · exact fun hc => hc.1 h
      · exact fun hc => absurd hc.2 (not_lt.mpr h)
    by_cases hemp : st.sync_queue.isEmpty
    · have hq : st.sync_queue = [] := List.isEmpty_iff.mp hemp
      simp [on_sync_asset_event, hskip, hemp, hq, extend]
    · simp [on_sync_asset_event, hskip, hemp]

/-- Witness for C3 (amended): a mismatched signal below the maximum is
skipped, and a signal at the maximum commits and empties the queue. -/
theorem sync_commit_characterization_witness :
    on_sync_asset_event exSkipState 3 = (exSkipState, []) ∧
    (on_sync_asset_event exSyncState 0).1.sync_queue = [] :=
  ⟨(sync_commit_characterization exSkipState 3).1 (by decide),
    ((sync_commit_characterization exSyncState 0).2 (Or.inr (by decide))).1⟩

/-! ## C7 and C10: the gc scan position and totality -/

/-- C7: evaluation at a failing input. With a three-entry counter table, scan
position 0 and window gc_max = 1, Assets::gc computes the next position as
max(0 saturating_add 1, 3) mod 3 = 0 instead of (0 + 1) mod 3 = 1: the
position never advances past the first window, so entries outside it are
never revisited. -/
theorem gc_next_position_wrong :
    gc exGcInner 0 1 = some (exGcInner, [], 0) ∧
    (0 + 1) % exGcInner.counters.length = 1 := by
  exact ⟨by decide, by decide⟩

/-- C10: evaluation at the failing input. On the first scheduled gc tick
after initialization the counter table is empty, and Assets::gc evaluates
the remainder by counters.len() = 0, which panics in Rust (modelled by
none); this happens for every scan position and window size, in particular
for the builder defaults gc_at = 0 and gc_max = usize::MAX. -/
theorem gc_empty_table_panics :
    (∀ a m, gc emptyInner a m = none) ∧
    on_gc_assets_event (initAssetServerState USIZE_MAX USIZE_MAX) = none :=
  ⟨fun _ _ => rfl, rfl⟩

/-! ## C1: rollback of the load pipeline -/

/-- The sync queue never shrinks while the load loop runs: whatever it
returns extends the queue it started from. -/
theorem loadLoop_prefix (L : UntypedAssetId → LoaderResult) (hasA : UntypedAssetId → Bool) :
    ∀ (fuel : Nat) (id : UntypedAssetId) (force : Bool) (sq : List SyncQueueEntry)
      (dq : List DependencyQueueEntry) (r : List SyncQueueEntry × Bool),
      loadLoop L hasA fuel id force sq dq = some r → ∃ t, r.1 = sq ++ t := by
  intro fuel
  induction fuel with
  | zero =>
      intro id force sq dq r h
      simp [loadLoop] at h
  | succ n ih =>
      intro id force sq dq r h
      simp only [loadLoop] at h
      by_cases hf : (force || !(hasA id)) = true
      · simp only [hf, if_true] at h
        cases hgl : (dq ++ (L id).deps).getLast? with
        | some nxt =>
            rw [hgl] at h
            by_cases hok : (L id).ok
            · rw [if_pos hok] at h
              obtain ⟨t, ht⟩ := ih nxt.asset_id nxt.force (sq ++ (L id).entries)
                (dq ++ (L id).deps).dropLast r h
              exact ⟨(L id).entries ++ t, by rw [ht, List.append_assoc]⟩
            · rw [if_neg hok] at h
              exact ⟨(L id).entries, by rw [← Option.some.inj h]⟩
        | none =>
            rw [hgl] at h
            by_cases hok : (L id).ok
            · rw [if_pos hok] at h
              exact ⟨(L id).entries, by rw [← Option.some.inj h]⟩
            · rw [if_neg hok] at h
              exact ⟨(L id).entries, by rw [← Option.some.inj h]⟩
      · simp only [if_neg hf, if_true] at h
        cases hgl : dq.getLast? with
        | some nxt =>
            rw [hgl] at h
            exact ih nxt.asset_id nxt.force sq dq.dropLast r h
        | none =>
            rw [hgl] at h
            exact ⟨[], by rw [← Option.some.inj h, List.append_nil]⟩

/-- C1: for every load request processed by the load pipeline, if any loader
invocation fails (for the root identity or any transitively popped
dependency), the sync queue after the request equals the sync queue recorded
at the start — every entry produced during the request is discarded — and
hence a later commit of the queue installs exactly what a commit of the
original queue would, so none of the request's assets becomes visible in
Storage. -/
theorem load_failure_rolls_back (L : UntypedAssetId → LoaderResult)
    (hasA : UntypedAssetId → Bool) (fuel : Nat) (id : UntypedAssetId) (force : Bool)
    (sq sq' : List SyncQueueEntry)
    (h : on_load_asset_event L hasA fuel id force sq = some (sq', true)) :
    sq' = sq ∧ ∀ inner, extend inner sq' = extend inner sq := by
  unfold on_load_asset_event at h
  cases hr : loadLoop L hasA fuel id force sq [] with
  | none => rw [hr] at h; simp at h
  | some r =>
      rw [hr] at h
      obtain ⟨t, ht⟩ := loadLoop_prefix L hasA fuel id force sq [] r hr
      by_cases hb : r.2
      · simp only [Option.map, hb, if_true] at h
        have hq : sq' = r.1.take sq.length := (Prod.mk.injEq _ _ _ _ ▸ Option.some.inj h).1.symm
        have : sq' = sq := by
          rw [hq, ht, List.take_left]
        exact ⟨this, fun inner => by rw [this]⟩
      · simp only [Option.map, hb, if_false] at h
        have := (Prod.mk.injEq _ _ _ _ ▸ Option.some.inj h).2
        exact absurd this.symm (by simpa using hb)

/-- A loader environment for the witness: identity 1 loads fine and queues
identity 2 as a dependency; identity 2 fails after pushing nothing. -/
def exLoaders : UntypedAssetId → LoaderResult := fun id =>
  if id = ⟨AssetUri.uuid 1, 0⟩ then
    ⟨[⟨⟨AssetUri.uuid 1, 0⟩, 7, some 1, some 2⟩], [⟨⟨AssetUri.uuid 2, 0⟩, false⟩], true⟩
  else ⟨[], [], false⟩

/-- Witness for C1: the root load of identity 1 succeeds and pushes a sync
entry, the popped dependency 2 fails, and the final sync queue is rolled back
to the empty queue recorded at the start. -/
theorem load_failure_rolls_back_witness :
    on_load_asset_event exLoaders (fun _ => false) 5 ⟨AssetUri.uuid 1, 0⟩ false []
        = some ([], true) ∧
    ([] : List SyncQueueEntry) = [] :=
  ⟨by decide,
    (load_failure_rolls_back exLoaders (fun _ => false) 5 ⟨AssetUri.uuid 1, 0⟩ false [] []
      (by decide)).1⟩

/-! ## C6: Loaded handles, try_loaded, get -/

def exPathX : AssetPath := ⟨AssetPathKind.sys, ["x"]⟩

/-- C6 counterexample: queue_load_optimistic hands back a Loaded-shaped
handle with no residency check; dereferencing it through get before its
batch has been committed hits the unwrap panic (modelled by none), so get on
a Loaded handle does have a failure path. -/
theorem loaded_get_can_fail :
    get emptyInner (queue_load_optimistic [] [] exPathX 0).2.2 = none := rfl

/-- C6 (amended): try_loaded returns a Loaded handle exactly when the value
is resident (has), and get cannot fail on any identity that is resident — in
particular on any handle obtained from try_loaded; only the unchecked
optimistic constructors can produce Loaded handles on which get fails. -/
theorem get_infallible_iff_resident (st : InnerAssets) (strong lid : UntypedAssetId) :
    ((try_loaded st strong).isSome = has_untyped st strong) ∧
    (try_loaded st strong = some lid → ∃ v, get st lid = some v) ∧
    (has_untyped st lid = true → ∃ v, get st lid = some v) := by
  refine ⟨?_, ?_, ?_⟩
  · by_cases h : has_untyped st strong <;> simp [try_loaded, h]
  · intro h
    unfold try_loaded at h
    by_cases hh : has_untyped st strong
    · rw [if_pos hh] at h
      have hlid : strong = lid := Option.some.inj h
      subst hlid
      unfold has_untyped at hh
      cases hv : lookupA st.underlying strong with
      | none => rw [hv] at hh; simp at hh
      | some v => exact ⟨v, hv⟩
    · rw [if_neg hh] at h
      exact absurd h (by simp)
  · intro h
    unfold has_untyped at h
    cases hv : lookupA st.underlying lid with
    | none => rw [hv] at h; simp at h
    | some v => exact ⟨v, hv⟩

def exResidentInner : InnerAssets :=
  ⟨[(⟨AssetUri.uuid 7, 0⟩, 99)], [(⟨AssetUri.uuid 7, 0⟩, 2)], [], []⟩

/-- Witness for C6 (amended): on a resident identity, try_loaded succeeds
and the handle it returns dereferences without failure. -/
theorem get_infallible_iff_resident_witness :
    ∃ v, get exResidentInner ⟨AssetUri.uuid 7, 0⟩ = some v :=
  (get_infallible_iff_resident exResidentInner ⟨AssetUri.uuid 7, 0⟩
    ⟨AssetUri.uuid 7, 0⟩).2.1 rfl

/-! ## C2: GC never removes a strongly held identity -/

/-- One gc removal step never touches an identity whose counter still shows
an outside strong holder (count at least two). -/
theorem gcRemoveStep_preserves (id : UntypedAssetId) (c : Nat) (h2 : 2 ≤ c)
    (k : UntypedAssetId) (acc : InnerAssets × List Msg)
    (hnd : (acc.1.counters.map Prod.fst).Nodup)
    (hc : lookupA acc.1.counters id = some c) :
    lookupA (gcRemoveStep acc k).1.counters id = some c ∧
    ((gcRemoveStep acc k).1.counters.map Prod.fst).Nodup ∧
    lookupA (gcRemoveStep acc k).1.underlying id = lookupA acc.1.underlying id ∧
    (∀ p, ((p, id) ∈ (gcRemoveStep acc k).1.path_id_index ↔ (p, id) ∈ acc.1.path_id_index)) := by
  by_cases hlt : (lookupA acc.1.counters k).getD 0 < 2
  · by_cases hik : id = k
    · subst hik
      rw [hc] at hlt
      simp only [Option.getD_some] at hlt
      omega
    · have hne : id ≠ k := hik
      have hcnt : (gcRemoveStep acc k).1.counters = swapRemoveA acc.1.counters k := by
        unfold gcRemoveStep
        rw [if_pos hlt]
      have hund : (gcRemoveStep acc k).1.underlying = removeA acc.1.underlying k := by
        unfold gcRemoveStep
        rw [if_pos hlt]
      refine ⟨?_, ?_, ?_, ?_⟩
      · rw [hcnt, lookupA_swapRemoveA_ne acc.1.counters k id hnd hne]
        exact hc
      · rw [hcnt]
        exact keys_nodup_swapRemoveA acc.1.counters k hnd
      · rw [hund]
        exact lookupA_removeA_ne acc.1.underlying k id hne
      · intro p
        cases hap : k.uri.asset_path with
        | none =>
            have hpi : (gcRemoveStep acc k).1.path_id_index = acc.1.path_id_index := by
              unfold gcRemoveStep
              rw [if_pos hlt]
              simp [hap]
            rw [hpi]
        | some ap =>
            have hpi : (gcRemoveStep acc k).1.path_id_index
                = setRemove acc.1.path_id_index (ap, k) := by
              unfold gcRemoveStep
              rw [if_pos hlt]
              simp [hap]
            rw [hpi, mem_setRemove_iff]
            constructor
            · exact fun hx => hx.1
            · intro hx
              exact ⟨hx, fun hcon => hne (congrArg Prod.snd hcon)⟩
  · unfold gcRemoveStep
    rw [if_neg hlt]
    exact ⟨hc, hnd, rfl, fun p => Iff.rfl⟩

/-- The whole gc removal loop preserves strongly held identities. -/
theorem gcfold_preserves (id : UntypedAssetId) (c : Nat) (h2 : 2 ≤ c) :
    ∀ (ks : List UntypedAssetId) (acc : InnerAssets × List Msg),
      (acc.1.counters.map Prod.fst).Nodup →
      lookupA acc.1.counters id = some c →
      lookupA (ks.foldl gcRemoveStep acc).1.counters id = some c ∧
      ((ks.foldl gcRemoveStep acc).1.counters.map Prod.fst).Nodup ∧
      lookupA (ks.foldl gcRemoveStep acc).1.underlying id = lookupA acc.1.underlying id ∧
      (∀ p, ((p, id) ∈ (ks.foldl gcRemoveStep acc).1.path_id_index ↔
        (p, id) ∈ acc.1.path_id_index)) := by
  intro ks
  induction ks with
  | nil => intro acc hnd hc; exact ⟨hc, hnd, rfl, fun p => Iff.rfl⟩
  | cons k t ih =>
      intro acc hnd hc
      obtain ⟨s1, s2, s3, s4⟩ := gcRemoveStep_preserves id c h2 k acc hnd hc
      obtain ⟨f1, f2, f3, f4⟩ := ih (gcRemoveStep acc k) s2 s1
      exact ⟨f1, f2, f3.trans s3, fun p => (f4 p).trans (s4 p)⟩

/-- One gc sweep preserves strongly held identities. -/
theorem gc_preserves_strong (st : InnerAssets) (a m : Nat) (id : UntypedAssetId) (c : Nat)
    (st' : InnerAssets) (msgs : List Msg) (nxt : Nat)
    (hnd : (st.counters.map Prod.fst).Nodup)
    (hc : lookupA st.counters id = some c) (h2 : 2 ≤ c)
    (hgc : gc st a m = some (st', msgs, nxt)) :
    lookupA st'.counters id = some c ∧
    (st'.counters.map Prod.fst).Nodup ∧
    lookupA st'.underlying id = lookupA st.underlying id ∧
    (∀ p, ((p, id) ∈ st'.path_id_index ↔ (p, id) ∈ st.path_id_index)) := by
  unfold gc at hgc
  split at hgc
  · exact absurd hgc (by simp)
  · dsimp only at hgc
    split at hgc
    · have hst : st = st' := by
        have := Option.some.inj hgc
        exact congrArg Prod.fst this
      subst hst
      exact ⟨hc, hnd, rfl, fun p => Iff.rfl⟩
    · have heq := Option.some.inj hgc
      have hst : st' = (((((st.counters.drop a).take m).filterMap
          (fun kc => if kc.2 < 2 then some kc.1 else none)).foldl
            gcRemoveStep (st, [])).1) := (congrArg Prod.fst heq).symm
      subst hst
      have hf := gcfold_preserves id c h2
        (((st.counters.drop a).take m).filterMap
          (fun kc => if kc.2 < 2 then some kc.1 else none)) (st, []) hnd hc
      exact ⟨hf.1, hf.2.1, hf.2.2.1, hf.2.2.2⟩

/-- Any number of gc ticks preserves strongly held identities. -/
theorem gcIter_preserves (m : Nat) (id : UntypedAssetId) (c : Nat) (h2 : 2 ≤ c) :
    ∀ (n : Nat) (st : InnerAssets) (a : Nat) (st' : InnerAssets) (a' : Nat),
      (st.counters.map Prod.fst).Nodup →
      lookupA st.counters id = some c →
      gcIter m n st a = some (st', a') →
      lookupA st'.counters id = some c ∧
      lookupA st'.underlying id = lookupA st.underlying id ∧
      (∀ p, ((p, id) ∈ st'.path_id_index ↔ (p, id) ∈ st.path_id_index)) := by
  intro n
  induction n with
  | zero =>
      intro st a st' a' hnd hc hrun
      have := Option.some.inj hrun
      have hst : st = st' := congrArg Prod.fst this
      subst hst
      exact ⟨hc, rfl, fun p => Iff.rfl⟩
  | succ n ih =>
      intro st a st' a' hnd hc hrun
      unfold gcIter at hrun
      cases hgc : gc st a m with
      | none => rw [hgc] at hrun; exact absurd hrun (by simp)
      | some r =>
          rw [hgc] at hrun
          obtain ⟨g1, g2, g3, g4⟩ := gc_preserves_strong st a m id c r.1 r.2.1 r.2.2
            hnd hc h2 (by rw [hgc])
          obtain ⟨f1, f2, f3⟩ := ih r.1 r.2.2 st' a' g2 g1 hrun
          exact ⟨f1, f2.trans g3, fun p => (f3 p).trans (g4 p)⟩

/-- C2: an identity whose counter shows an outside strong holder (strong
count at least two, i.e. a live Strong or Loaded handle besides the table's
own token) is never removed by garbage collection: across any number of
sweep ticks its counter entry, its resident value and its reverse-index
entries are all untouched. The candidate filter and the re-check under
exclusive access both require a count below two, so such an identity passes
neither. -/
theorem gc_never_removes_strongly_held (n : Nat) (st : InnerAssets) (a m : Nat)
    (id : UntypedAssetId) (c : Nat) (st' : InnerAssets) (a' : Nat)
    (hnd : (st.counters.map Prod.fst).Nodup)
    (hc : lookupA st.counters id = some c) (h2 : 2 ≤ c)
    (hrun : gcIter m n st a = some (st', a')) :
    lookupA st'.counters id = some c ∧
    lookupA st'.underlying id = lookupA st.underlying id ∧
    (∀ p, ((p, id) ∈ st'.path_id_index ↔ (p, id) ∈ st.path_id_index)) :=
  gcIter_preserves m id c h2 n st a st' a' hnd hc hrun

/-- Storage holding one strongly held resident asset. -/
def exHeldInner : InnerAssets :=
  ⟨[(⟨AssetUri.uuid 5, 0⟩, 77)], [(⟨AssetUri.uuid 5, 0⟩, 2)], [], []⟩

/-- Witness for C2: three gc ticks with window 1 leave the strongly held
identity resident with its counter intact. -/
theorem gc_never_removes_strongly_held_witness :
    lookupA exHeldInner.counters ⟨AssetUri.uuid 5, 0⟩ = some 2 ∧
    gcIter 1 3 exHeldInner 0 = some (exHeldInner, 0) ∧
    lookupA exHeldInner.underlying ⟨AssetUri.uuid 5, 0⟩
      = lookupA exHeldInner.underlying ⟨AssetUri.uuid 5, 0⟩ :=
  ⟨rfl, by decide,
    (gc_never_removes_strongly_held 3 exHeldInner 0 1 ⟨AssetUri.uuid 5, 0⟩ 2 exHeldInner 0
      (by decide) rfl (by decide) (by decide)).2.1⟩

/-! ## C8: the path reverse-index invariant -/

/-- Every entry of the path reverse index points at a path-based identity
whose counter is live. This is the direction of the spec invariant that the
code maintains. -/
def pathIndexInv (st : InnerAssets) : Prop :=
  ∀ p id, (p, id) ∈ st.path_id_index →
    id.uri.asset_path = some p ∧ (lookupA st.counters id).isSome = true

theorem isSome_of_strongCount_pos (cnt : List (UntypedAssetId × Nat)) (id : UntypedAssetId)
    (h : 0 < strongCountOf cnt id) : (lookupA cnt id).isSome = true := by
  unfold strongCountOf at h
  cases hv : lookupA cnt id with
  | none => rw [hv] at h; simp at h
  | some v => rfl

theorem register_preserves_lookup_isSome (cs : List (UntypedAssetId × Nat))
    (k id' : UntypedAssetId) (h : (lookupA cs id').isSome = true) :
    (lookupA (register_asset cs k).1 id').isSome = true := by
  unfold register_asset
  cases hk : lookupA cs k with
  | some c =>
      show (lookupA (insertA cs k (c + 1)) id').isSome = true
      by_cases hik : id' = k
      · subst hik
        rw [lookupA_insertA_self]
        rfl
      · rw [lookupA_insertA_ne cs k id' (c + 1) hik]
        exact h
  | none =>
      show (lookupA (cs ++ [(k, 2)]) id').isSome = true
      cases hv : lookupA cs id' with
      | none => rw [hv] at h; simp at h
      | some v =>
          rw [lookupA_append_left cs [(k, 2)] id' v hv]
          rfl

theorem mem_path_foldl (es : List SyncQueueEntry) :
    ∀ (ix : List (AssetPath × UntypedAssetId)) (x : AssetPath × UntypedAssetId),
      x ∈ es.foldl (fun ix e =>
        match e.asset_id.uri.asset_path with
        | some ap => setInsert ix (ap, e.asset_id)
        | none => ix) ix →
      x ∈ ix ∨ ∃ e, e ∈ es ∧ e.asset_id.uri.asset_path = some x.1 ∧ x.2 = e.asset_id := by
  induction es with
  | nil => intro ix x h; exact Or.inl h
  | cons e t ih =>
      intro ix x h
      simp only [List.foldl_cons] at h
      cases hap : e.asset_id.uri.asset_path with
      | none =>
          simp only [hap] at h
          rcases ih ix x h with h1 | ⟨e', he', hu, hx⟩
          · exact Or.inl h1
          · exact Or.inr ⟨e', List.mem_cons_of_mem _ he', hu, hx⟩
      | some ap =>
          simp only [hap] at h
          rcases ih (setInsert ix (ap, e.asset_id)) x h with h1 | ⟨e', he', hu, hx⟩
          · rcases (mem_setInsert_iff ix (ap, e.asset_id) x).mp h1 with h2 | h2
            · exact Or.inl h2
            · refine Or.inr ⟨e, List.mem_cons_self e t, ?_, ?_⟩
              · rw [h2]
                exact hap
              · rw [h2]
          · exact Or.inr ⟨e', List.mem_cons_of_mem _ he', hu, hx⟩

theorem extend_pathInv (st : InnerAssets) (entries : List SyncQueueEntry)
    (hinv : pathIndexInv st) : pathIndexInv (extend st entries).1 := by
  have hchar := extend_fold_char st.counters entries st []
  intro p pid hmem
  unfold extend at hmem ⊢
  rw [hchar.2.2.2] at hmem
  rw [hchar.2.2.1]
  rcases mem_path_foldl (acceptedBy st.counters entries) st.path_id_index (p, pid) hmem
    with h1 | ⟨e, he, hu, hx⟩
  · exact hinv p pid h1
  · simp only [acceptedBy, List.mem_filter, decide_eq_true_eq] at he
    have hid : pid = e.asset_id := hx
    subst hid
    exact ⟨hu, isSome_of_strongCount_pos st.counters e.asset_id he.2⟩

theorem gcRemoveStep_pathInv (k : UntypedAssetId) (acc : InnerAssets × List Msg)
    (hnd : (acc.1.counters.map Prod.fst).Nodup) (hinv : pathIndexInv acc.1) :
    pathIndexInv (gcRemoveStep acc k).1 ∧
    ((gcRemoveStep acc k).1.counters.map Prod.fst).Nodup := by
  by_cases hlt : (lookupA acc.1.counters k).getD 0 < 2
  · have hcnt : (gcRemoveStep acc k).1.counters = swapRemoveA acc.1.counters k := by
      unfold gcRemoveStep
      rw [if_pos hlt]
    refine ⟨?_, by rw [hcnt]; exact keys_nodup_swapRemoveA acc.1.counters k hnd⟩
    intro p pid hmem
    cases hap : k.uri.asset_path with
    | none =>
        have hpi : (gcRemoveStep acc k).1.path_id_index = acc.1.path_id_index := by
          unfold gcRemoveStep
          rw [if_pos hlt]
          simp [hap]
        rw [hpi] at hmem
        obtain ⟨hu, hl⟩ := hinv p pid hmem
        have hne : pid ≠ k := by
          intro hik
          subst hik
          rw [hap] at hu
          exact Option.noConfusion hu
        refine ⟨hu, ?_⟩
        rw [hcnt, lookupA_swapRemoveA_ne acc.1.counters k pid hnd hne]
        exact hl
    | some ap =>
        have hpi : (gcRemoveStep acc k).1.path_id_index
            = setRemove acc.1.path_id_index (ap, k) := by
          unfold gcRemoveStep
          rw [if_pos hlt]
          simp [hap]
        rw [hpi, mem_setRemove_iff] at hmem
        obtain ⟨hu, hl⟩ := hinv p pid hmem.1
        have hne : pid ≠ k := by
          intro hik
          subst hik
          rw [hap] at hu
          have hp : p = ap := (Option.some.inj hu).symm
          exact hmem.2 (by rw [hp])
        refine ⟨hu, ?_⟩
        rw [hcnt, lookupA_swapRemoveA_ne acc.1.counters k pid hnd hne]
        exact hl
  · have hstep : gcRemoveStep acc k = acc := by
      unfold gcRemoveStep
      rw [if_neg hlt]
    rw [hstep]
    exact ⟨hinv, hnd⟩

theorem gcfold_pathInv (ks : List UntypedAssetId) :
    ∀ acc : InnerAssets × List Msg,
      (acc.1.counters.map Prod.fst).Nodup → pathIndexInv acc.1 →
      pathIndexInv (ks.foldl gcRemoveStep acc).1 ∧
      ((ks.foldl gcRemoveStep acc).1.counters.map Prod.fst).Nodup := by
  induction ks with
  | nil => intro acc hnd hinv; exact ⟨hinv, hnd⟩
  | cons k t ih =>
      intro acc hnd hinv
      have hstep := gcRemoveStep_pathInv k acc hnd hinv
      exact ih (gcRemoveStep acc k) hstep.2 hstep.1

theorem gc_pathInv (st : InnerAssets) (a m : Nat) (st' : InnerAssets) (msgs : List Msg)
    (nxt : Nat) (hnd : (st.counters.map Prod.fst).Nodup) (hinv : pathIndexInv st)
    (hgc : gc st a m = some (st', msgs, nxt)) : pathIndexInv st' := by
  unfold gc at hgc
  split at hgc
  · exact absurd hgc (by simp)
  · dsimp only at hgc
    split at hgc
    · have hst : st' = st := (congrArg Prod.fst (Option.some.inj hgc)).symm
      subst hst
      exact hinv
    · have hst : st' = (((((st.counters.drop a).take m).filterMap
          (fun kc => if kc.2 < 2 then some kc.1 else none)).foldl
            gcRemoveStep (st, [])).1) := (congrArg Prod.fst (Option.some.inj hgc)).symm
      subst hst
      exact (gcfold_pathInv (((st.counters.drop a).take m).filterMap
        (fun kc => if kc.2 < 2 then some kc.1 else none)) (st, []) hnd hinv).1

def exPathP : AssetPath := ⟨AssetPathKind.sys, ["p"]⟩

def exIdP : UntypedAssetId := ⟨AssetUri.assetPath exPathP, 0⟩

/-- C8 counterexample: registering a fresh path-based identity creates a live
counter but adds nothing to the reverse index, so right after registration
the identity is path-based with a live counter yet absent from the index —
the claimed biconditional fails in the only-if direction. -/
theorem register_breaks_index_iff :
    (lookupA (register_asset_state emptyInner exIdP).counters exIdP).isSome = true ∧
    exIdP.uri.asset_path = some exPathP ∧
    (exPathP, exIdP) ∉ (register_asset_state emptyInner exIdP).path_id_index := by
  refine ⟨rfl, rfl, ?_⟩
  intro h
  exact absurd h (List.not_mem_nil _)

/-- C8 (amended): the invariant that holds and is preserved is one
direction of the claimed biconditional: every identity in the path reverse
index has a path-based URI equal to its index key and a live counter.
Registration preserves it (it only grows the counter table), commit
preserves it (an entry is indexed only under its own path and only when its
counter is live), and garbage collection preserves it (an identity is
removed from the counters together with all of its index entries). The
converse direction fails between registration and commit. -/
theorem path_index_invariant_preserved (st : InnerAssets) (id : UntypedAssetId)
    (entries : List SyncQueueEntry) (a m : Nat)
    (hnd : (st.counters.map Prod.fst).Nodup) (hinv : pathIndexInv st) :
    pathIndexInv (register_asset_state st id) ∧
    pathIndexInv (extend st entries).1 ∧
    (∀ st' msgs nxt, gc st a m = some (st', msgs, nxt) → pathIndexInv st') := by
  refine ⟨?_, extend_pathInv st entries hinv,
    fun st' msgs nxt hgc => gc_pathInv st a m st' msgs nxt hnd hinv hgc⟩
  intro p pid hmem
  obtain ⟨hu, hl⟩ := hinv p pid hmem
  exact ⟨hu, register_preserves_lookup_isSome st.counters id pid hl⟩

/-- Storage with one committed, indexed, strongly held path asset. -/
def exIndexedInner : InnerAssets :=
  ⟨[(exIdP, 3)], [(exIdP, 2)], [(exPathP, exIdP)], []⟩

/-- Witness for C8 (amended): the invariant holds after re-registering the
indexed asset. -/
theorem path_index_invariant_preserved_witness :
    pathIndexInv (register_asset_state exIndexedInner exIdP) := by
  have hinv : pathIndexInv exIndexedInner := by
    intro p pid hm
    have h := List.mem_singleton.mp hm
    have hp : p = exPathP := congrArg Prod.fst h
    have hid : pid = exIdP := congrArg Prod.snd h
    subst hp
    subst hid
    exact ⟨rfl, rfl⟩
  exact (path_index_invariant_preserved exIndexedInner exIdP [] 0 1
    (by simp [exIndexedInner]) hinv).1

/-! ## C9: change notification -/

theorem stripPrefixL_append (dir rel : AbsPath) : stripPrefixL dir (dir ++ rel) = some rel := by
  induction dir with
  | nil => simp [stripPrefixL]
  | cons a t ih => simp [stripPrefixL, ih]

theorem mem_map_pair (l : List UntypedAssetId) (id : UntypedAssetId) (b : Bool) :
    ((id, b) ∈ l.map (fun i => (i, true))) ↔ b = true ∧ id ∈ l := by
  constructor
  · intro h
    rcases List.mem_map.mp h with ⟨i, hi, heq⟩
    have h1 : i = id := congrArg Prod.fst heq
    have h2 : true = b := congrArg Prod.snd heq
    exact ⟨h2.symm, h1 ▸ hi⟩
  · rintro ⟨hb, hid⟩
    subst hb
    exact List.mem_map.mpr ⟨id, hid, rfl⟩

theorem take_dropLast_eq (x : String) (xs : List String) (n : Nat) (hn : n ≤ xs.length) :
    List.take n ((x :: xs).dropLast) = List.take n (x :: xs) := by
  rw [List.dropLast_eq_take, List.take_take]
  have hmin : min n ((x :: xs).length - 1) = n := by
    simp only [List.length_cons]
    omega
  rw [hmin]

/-- Membership in the notify walk: an identity is emitted at some point of
the walk from path p exactly when the reverse index holds it for some
ancestor prefix of p, and every emission carries force = true. -/
theorem notifyWalk_mem (st : InnerAssets) (ps : AssetsPaths) (k : AssetPathKind)
    (hrt : ∀ rel, ps.asset_path (ps.asset_dir k ++ rel) = some ⟨k, rel⟩) :
    ∀ (fuel : Nat) (p : RelPath), p.length < fuel → ∀ (id : UntypedAssetId) (b : Bool),
      ((id, b) ∈ notifyWalk st ps (ps.asset_dir k) fuel ⟨k, p⟩ ↔
        b = true ∧ ∃ n, n ≤ p.length ∧ id ∈ asset_ids_for_path st ⟨k, List.take n p⟩) := by
  intro fuel
  induction fuel with
  | zero =>
      intro p hp
      exact absurd hp (Nat.not_lt_zero _)
  | succ f ih =>
      intro p hp id b
      cases p with
      | nil =>
          simp only [notifyWalk, parentL]
          rw [mem_map_pair]
          constructor
          · rintro ⟨hb, hmem⟩
            exact ⟨hb, 0, Nat.le_refl 0, hmem⟩
          · rintro ⟨hb, n, hn, hmem⟩
            refine ⟨hb, ?_⟩
            simp only [List.take_nil] at hmem
            exact hmem
      | cons x xs =>
          have hap : ps.asset_path (ps.asset_dir k ++ (x :: xs).dropLast)
              = some ⟨k, (x :: xs).dropLast⟩ := hrt _
          have hwalk : notifyWalk st ps (ps.asset_dir k) (f + 1) ⟨k, x :: xs⟩
              = (asset_ids_for_path st ⟨k, x :: xs⟩).map (fun i => (i, true))
                ++ notifyWalk st ps (ps.asset_dir k) f ⟨k, (x :: xs).dropLast⟩ := by
            simp only [notifyWalk, parentL, hap]
          have hlen : ((x :: xs).dropLast).length < f := by
            simp only [List.length_cons] at hp
            simp only [List.length_dropLast, List.length_cons]
            omega
          have htakeall : List.take (xs.length + 1) (x :: xs) = x :: xs := by
            have h := List.take_length (x :: xs)
            simp only [List.length_cons] at h
            exact h
          rw [hwalk, List.mem_append, mem_map_pair, ih ((x :: xs).dropLast) hlen id b]
          simp only [List.length_dropLast, List.length_cons]
          constructor
          · rintro (⟨hb, hmem⟩ | ⟨hb, n, hn, hmem⟩)
            · refine ⟨hb, xs.length + 1, Nat.le_refl _, ?_⟩
              rwa [htakeall]
            · have hn' : n ≤ xs.length := by omega
              refine ⟨hb, n, by omega, ?_⟩
              rwa [take_dropLast_eq x xs n hn'] at hmem
          · rintro ⟨hb, n, hn, hmem⟩
            by_cases hcase : n ≤ xs.length
            · refine Or.inr ⟨hb, n, by omega, ?_⟩
              rwa [take_dropLast_eq x xs n hcase]
            · have hn' : n = xs.length + 1 := by omega
              subst hn'
              rw [htakeall] at hmem
              exact Or.inl ⟨hb, hmem⟩

def exIdF : UntypedAssetId := ⟨AssetUri.assetPath ⟨AssetPathKind.sys, ["d", "f"]⟩, 0⟩

def exIdD : UntypedAssetId := ⟨AssetUri.assetPath ⟨AssetPathKind.sys, ["d"]⟩, 0⟩

/-- A reverse index holding both a file asset sys://d/f and its parent
directory table asset sys://d. -/
def exNotifyInner : InnerAssets :=
  ⟨[], [], [(⟨AssetPathKind.sys, ["d", "f"]⟩, exIdF), (⟨AssetPathKind.sys, ["d"]⟩, exIdD)], []⟩

def exPs : AssetsPaths := ⟨["S"], ["U"]⟩

/-- C9 counterexample: the raw change S/d/f matches exIdF at the exact asset
path, yet the walk still ascends and also re-submits the parent directory
asset exIdD — the ascent is unconditional, not only performed when nothing
matches. -/
theorem notify_walks_even_after_match :
    asset_ids_for_path exNotifyInner ⟨AssetPathKind.sys, ["d", "f"]⟩ = [exIdF] ∧
    on_notify_change exNotifyInner exPs 10 ["S", "d", "f"]
      = [(exIdF, true), (exIdD, true)] ∧
    exIdD ≠ exIdF := by
  refine ⟨rfl, rfl, by decide⟩

/-- C9 (amended): for a changed path under a watched root (with roots that
re-strip cleanly), the raw path is stripped to an asset path and the walk
visits every ancestor prefix unconditionally — whether or not an earlier
level matched — re-submitting every identity the index holds at any visited
level, always with force = true: an identity is emitted iff the index holds
it for some prefix of the stripped path. -/
theorem notify_resubmits_all_ancestors (st : InnerAssets) (ps : AssetsPaths)
    (k : AssetPathKind) (p : RelPath) (fuel : Nat) (id : UntypedAssetId) (b : Bool)
    (hrt : ∀ rel, ps.asset_path (ps.asset_dir k ++ rel) = some ⟨k, rel⟩)
    (hfuel : p.length < fuel) :
    (id, b) ∈ on_notify_change st ps fuel (ps.asset_dir k ++ p) ↔
      b = true ∧ ∃ n, n ≤ p.length ∧ id ∈ asset_ids_for_path st ⟨k, List.take n p⟩ := by
  simp only [on_notify_change, hrt p]
  exact notifyWalk_mem st ps k hrt fuel p hfuel id b

/-- Witness for C9 (amended): the parent directory asset is re-submitted
with force for a change two levels below the root. -/
theorem notify_resubmits_all_ancestors_witness :
    (exIdD, true) ∈ on_notify_change exNotifyInner exPs 3
      (exPs.asset_dir AssetPathKind.sys ++ ["d", "f"]) := by
  have hrt : ∀ rel, exPs.asset_path (exPs.asset_dir AssetPathKind.sys ++ rel)
      = some ⟨AssetPathKind.sys, rel⟩ := by
    intro rel
    show AssetsPaths.asset_path exPs (exPs.sys_dir ++ rel)
      = some ⟨AssetPathKind.sys, rel⟩
    unfold AssetsPaths.asset_path
    rw [stripPrefixL_append]
  exact (notify_resubmits_all_ancestors exNotifyInner exPs AssetPathKind.sys ["d", "f"] 3
    exIdD true hrt (by decide)).mpr ⟨rfl, 1, by decide, by decide⟩

end Carousel
